import Mathlib

/-!
Shallow embedding of `src/main.rs` (collectd-prv: stdout to collectd
notifications).

Bytes are modelled as `Nat` (values < 256 where relevant).  A raw input line
is a `List Nat` of the bytes returned by one successful `read_line` call
(terminator included when present).  `Instant`s are modelled as `Nat`
nanoseconds; `Duration::as_secs` of the difference is whole-number division
by 10^9 (`Instant::duration_since` saturates at zero, matching `Nat`
subtraction).  The per-line `SystemTime` timestamp is passed in as the
whole-seconds value the call would produce.

Rust `String` indexing `buf[start..end]` panics when an index is not a char
boundary; panics are modelled by an explicit `panicked` flag.  `read_line`
into a `String` rejects byte sequences that are not valid UTF-8 with an
`InvalidData` error (documented std behaviour); this is modelled by the
`utf8Valid` check in `runLoop`.  Output is modelled at the granularity of
one `Message` per fragment: a fragment whose slice panics contributes no
`Message` (in the real program the envelope of the panicking fragment may
already have been partially written).
-/

set_option autoImplicit false

namespace CollectdPrv

/-- const DATA_MAX_LEN: usize = 64 -/
def DATA_MAX_LEN : Nat := 64

/-- const HOSTNAME_MAX_LEN: usize = 16 -/
def HOSTNAME_MAX_LEN : Nat := 16

/-- Byte offset of the first occurrence of byte `c`, as Rust `str::find`
returns it. -/
def findByte (c : Nat) : List Nat → Option Nat
  | [] => none
  | b :: rest => if b = c then some 0 else (findByte c rest).map (· + 1)

/-- buf.ends_with('\n') on the raw line bytes. -/
def endsWithLF (buf : List Nat) : Bool := buf.getLast? = some 10

/-- Logical length of a raw line (main.rs lines 107-110): offset of the
first NUL if any, else raw length minus 1 when the line ends with a
line-feed, else the raw length. -/
def logicalLen (buf : List Nat) : Nat :=
  match findByte 0 buf with
  | some n => n
  | none => buf.length - (if endsWithLF buf then 1 else 0)

/-- Fragment total (main.rs lines 119-121):
`chunks = len / M`, `rem = len % M`, `total = chunks + (rem == 0 ? 0 : 1)`. -/
def fragTotal (len M : Nat) : Nat :=
  len / M + (if len % M = 0 then 0 else 1)

/-- Rust `str::is_char_boundary` on the underlying bytes: index 0 and the
length are boundaries; otherwise the byte at the index must not be a UTF-8
continuation byte (`b as i8 >= -0x40`, i.e. `b < 0x80 ∨ 0xC0 ≤ b`). -/
def isCharBoundary (buf : List Nat) (i : Nat) : Bool :=
  if i = 0 then true
  else
    match buf.get? i with
    | some b => decide (b < 0x80) || decide (0xC0 ≤ b)
    | none => decide (i = buf.length)

/-- Carriage-return or line-feed. -/
def isEolByte (c : Nat) : Bool := c = 13 || c = 10

/-- Escape of a single non-terminator byte: backslash doubles, double-quote
gains a backslash, everything else passes through. -/
def escByte (c : Nat) : List Nat :=
  if c = 92 then [92, 92]
  else if c = 34 then [92, 34]
  else [c]

/-- The escape loop body (main.rs lines 157-170): bytes are written one by
one; a backslash is written as two backslashes, a double-quote as
backslash-quote; a carriage-return or line-feed sets `eol` (writing
nothing) and the loop breaks right after, dropping the rest of the chunk. -/
def escapeChunk : List Nat → List Nat
  | [] => []
  | c :: rest =>
    if c = 92 then 92 :: 92 :: escapeChunk rest
    else if c = 34 then 92 :: 34 :: escapeChunk rest
    else if isEolByte c then []
    else c :: escapeChunk rest

/-- UTF-8 continuation byte. -/
def isCont (b : Nat) : Bool := decide (0x80 ≤ b) && decide (b ≤ 0xBF)

/-- Validity of a byte sequence as UTF-8, as Rust's `run_utf8_validation`
(hence `read_line` into a `String`) decides it. -/
def utf8Valid : List Nat → Bool
  | [] => true
  | b :: rest =>
    if b ≤ 0x7F then utf8Valid rest
    else if 0xC2 ≤ b ∧ b ≤ 0xDF then
      match rest with
      | c1 :: r => isCont c1 && utf8Valid r
      | [] => false
    else if b = 0xE0 then
      match rest with
      | c1 :: c2 :: r =>
        (decide (0xA0 ≤ c1) && decide (c1 ≤ 0xBF)) && isCont c2 && utf8Valid r
      | _ => false
    else if (0xE1 ≤ b ∧ b ≤ 0xEC) ∨ b = 0xEE ∨ b = 0xEF then
      match rest with
      | c1 :: c2 :: r => isCont c1 && isCont c2 && utf8Valid r
      | _ => false
    else if b = 0xED then
      match rest with
      | c1 :: c2 :: r =>
        (decide (0x80 ≤ c1) && decide (c1 ≤ 0x9F)) && isCont c2 && utf8Valid r
      | _ => false
    else if b = 0xF0 then
      match rest with
      | c1 :: c2 :: c3 :: r =>
        (decide (0x90 ≤ c1) && decide (c1 ≤ 0xBF)) && isCont c2 && isCont c3 &&
          utf8Valid r
      | _ => false
    else if 0xF1 ≤ b ∧ b ≤ 0xF3 then
      match rest with
      | c1 :: c2 :: c3 :: r => isCont c1 && isCont c2 && isCont c3 && utf8Valid r
      | _ => false
    else if b = 0xF4 then
      match rest with
      | c1 :: c2 :: c3 :: r =>
        (decide (0x80 ≤ c1) && decide (c1 ≤ 0x8F)) && isCont c2 && isCont c3 &&
          utf8Valid r
      | _ => false
    else false

/-- The validated configuration (struct `Args`), strings as byte lists. -/
structure Args where
  hostname : List Nat
  plugin : List Nat
  ctype : List Nat
  limit : Nat
  window : Nat
  maxEventLength : Nat
  maxEventId : Nat
  verbose : Bool
deriving Repr, DecidableEq

/-- The mutable loop state of `event_loop`: window start `t0`, fragment-unit
counter `count`, correlation id `id`. -/
structure LoopState where
  t0 : Nat
  count : Nat
  id : Nat
deriving Repr, DecidableEq

/-- Initial loop state (main.rs lines 91-94): `t0 = Instant::now()`,
`count = 0`, `id = 1`. -/
def initState (t : Nat) : LoopState := ⟨t, 0, 1⟩

/-- Whole elapsed seconds `t1.duration_since(t0).as_secs()`, instants in
nanoseconds. -/
def elapsedSecs (t0 t1 : Nat) : Nat := (t1 - t0) / 1000000000

/-- Modular advance of the correlation id (main.rs line 178):
`id = (id % max_event_id) + 1`. -/
def advanceId (m i : Nat) : Nat := i % m + 1

/-- One emitted PUTNOTIF message, structured: the constant-envelope fields,
the optional correlation header `@id:seq:total@` and the escaped body
between the quotes. -/
structure Message where
  host : List Nat
  time : Nat
  plugin : List Nat
  ctype : List Nat
  header : Option (Nat × Nat × Nat)
  body : List Nat
deriving Repr, DecidableEq

/-- Assembly of one fragment's message (main.rs lines 137-171): the header
token is written only when `total > 1`. -/
def mkMessage (args : Args) (idv sec seq total : Nat) (body : List Nat) :
    Message :=
  { host := args.hostname, time := sec, plugin := args.plugin,
    ctype := args.ctype,
    header := if 1 < total then some (idv, seq, total) else none,
    body := body }

/-- The fragment loop `for n in 0..total` (main.rs lines 134-175), fuel =
remaining iterations (started at `total`), `start` advancing to `end`.
`end = start + M` while more than `M` bytes remain, else `len`.  Slicing
`buf[start..end]` requires both indices to be char boundaries; otherwise the
program panics (second component `true`). -/
def emitChunks (args : Args) (idv sec total len : Nat) (buf : List Nat) :
    Nat → Nat → List Message × Bool
  | 0, _ => ([], false)
  | fuel + 1, start =>
    let e := if args.maxEventLength < len - start then start + args.maxEventLength
             else len
    if isCharBoundary buf start && isCharBoundary buf e then
      let r := emitChunks args idv sec total len buf fuel e
      (mkMessage args idv sec (total - fuel) total
        (escapeChunk ((buf.drop start).take (e - start))) :: r.1, r.2)
    else ([], true)

/-- The (start, end) byte ranges the fragment loop slices, in order. -/
def chunkRanges (len M : Nat) : Nat → Nat → List (Nat × Nat)
  | 0, _ => []
  | fuel + 1, start =>
    let e := if M < len - start then start + M else len
    (start, e) :: chunkRanges len M fuel e

/-- The fragmenter: the ranges produced for a line of logical length `len`. -/
def split (len M : Nat) : List (Nat × Nat) := chunkRanges len M (fragTotal len M) 0

/-- Result of processing one line: new state, messages emitted, whether the
line was discarded by the rate limiter, whether the program panicked. -/
structure StepOut where
  state : LoopState
  emitted : List Message
  discarded : Bool
  panicked : Bool
deriving Repr, DecidableEq

/-- Window-reset step, counter part (main.rs lines 114-117): the counter is
zeroed when at least `window` whole seconds elapsed since `t0`. -/
def resetCount (args : Args) (st : LoopState) (t1 : Nat) : Nat :=
  if args.window ≤ elapsedSecs st.t0 t1 then 0 else st.count

/-- Window-reset step, window-start part (main.rs lines 114-117). -/
def resetT0 (args : Args) (st : LoopState) (t1 : Nat) : Nat :=
  if args.window ≤ elapsedSecs st.t0 t1 then t1 else st.t0

/-- One iteration of `event_loop` past `read_line` (main.rs lines 107-179):
window reset, fragment count, rate-limit gate (`continue` on discard,
leaving the incremented counter), fragment emission, correlation-id advance
for multi-fragment lines.  A zero `max_event_length` or, on a multi-fragment
line, a zero `max_event_id`, makes the integer division panic. -/
def stepLine (args : Args) (st : LoopState) (buf : List Nat) (t1 sec : Nat) :
    StepOut :=
  let len := logicalLen buf
  let cnt0 := resetCount args st t1
  let t0' := resetT0 args st t1
  if args.maxEventLength = 0 then
    ⟨⟨t0', cnt0, st.id⟩, [], false, true⟩
  else
    let total := fragTotal len args.maxEventLength
    let cnt := cnt0 + total
    if 0 < args.limit ∧ args.limit < cnt then
      ⟨⟨t0', cnt, st.id⟩, [], true, false⟩
    else
      let r := emitChunks args st.id sec total len buf total 0
      if r.2 then ⟨⟨t0', cnt, st.id⟩, r.1, false, true⟩
      else if 1 < total then
        if args.maxEventId = 0 then ⟨⟨t0', cnt, st.id⟩, r.1, false, true⟩
        else ⟨⟨t0', cnt, advanceId args.maxEventId st.id⟩, r.1, false, false⟩
      else ⟨⟨t0', cnt, st.id⟩, r.1, false, false⟩

/-- How a run of the loop ends: end-of-stream (`Ok(())`), a fatal
`read_line` error, or a panic. -/
inductive RunExit where
  | eof : RunExit
  | ioError : RunExit
  | panicked : RunExit
deriving Repr, DecidableEq

/-- One successful arrival on stdin: the raw bytes `read_line` would append,
the `Instant` (ns) and the Unix-epoch whole seconds observed for it. -/
structure Event where
  raw : List Nat
  t1 : Nat
  sec : Nat
deriving Repr, DecidableEq

/-- The event loop over a finite input stream: each line must be valid UTF-8
or `read_line` fails and the loop returns the error; a panic also stops the
loop.  Collects all messages written before the exit. -/
def runLoop (args : Args) : LoopState → List Event → List Message × RunExit
  | _, [] => ([], RunExit.eof)
  | st, ev :: rest =>
    if utf8Valid ev.raw then
      let out := stepLine args st ev.raw ev.t1 ev.sec
      if out.panicked then (out.emitted, RunExit.panicked)
      else
        let r := runLoop args out.state rest
        (out.emitted ++ r.1, r.2)
    else ([], RunExit.ioError)

/-- fn parse_service (main.rs lines 49-68): split at the first '/' (byte
0x2F); reject when there is none, or the plugin part (before it) has length
≥ 64, or the type part (after it) has length ≥ 64. -/
def parse_service (s : List Nat) : Option (List Nat × List Nat) :=
  match findByte 47 s with
  | none => none
  | some pos =>
    if DATA_MAX_LEN ≤ pos ∨ DATA_MAX_LEN ≤ s.length - (pos + 1) then none
    else some (s.take pos, s.drop (pos + 1))

/-- The pre-loop configuration validation in `main` (lines 73-76) combined
with service parsing: the hostname must have length < 16 and the service
must parse. -/
def validateConfig (service hostname : List Nat) :
    Option (List Nat × List Nat) :=
  if HOSTNAME_MAX_LEN ≤ hostname.length then none
  else parse_service service

/-! ### Arithmetic facts about the fragment-count formula -/

lemma fragTotal_zero (M : Nat) : fragTotal 0 M = 0 := by
  simp [fragTotal]

lemma fragTotal_eq_ceil (len M : Nat) (hM : 0 < M) :
    fragTotal len M = (len + M - 1) / M := by
  have hd := Nat.div_add_mod len M
  have hr : len % M < M := Nat.mod_lt _ hM
  symm
  apply Nat.div_eq_of_lt_le
  · rw [fragTotal]
    rcases Nat.eq_zero_or_pos (len % M) with h | h
    · rw [h, if_pos rfl]
      have hc : (len / M + 0) * M = M * (len / M) := by ring
      omega
    · rw [if_neg (by omega)]
      have hc : (len / M + 1) * M = M * (len / M) + M := by ring
      omega
  · rw [fragTotal]
    rcases Nat.eq_zero_or_pos (len % M) with h | h
    · rw [h, if_pos rfl]
      have hc : (len / M + 0 + 1) * M = M * (len / M) + M := by ring
      omega
    · rw [if_neg (by omega)]
      have hc : (len / M + 1 + 1) * M = M * (len / M) + M + M := by ring
      omega

lemma le_fragTotal_mul (len M : Nat) (hM : 0 < M) :
    len ≤ fragTotal len M * M := by
  have hd := Nat.div_add_mod len M
  have hr : len % M < M := Nat.mod_lt _ hM
  rw [fragTotal]
  rcases Nat.eq_zero_or_pos (len % M) with h | h
  · rw [h, if_pos rfl]
    have hc : (len / M + 0) * M = M * (len / M) := by ring
    omega
  · rw [if_neg (by omega)]
    have hc : (len / M + 1) * M = M * (len / M) + M := by ring
    omega

lemma mul_lt_of_lt_fragTotal (len M n : Nat) (hM : 0 < M)
    (hn : n < fragTotal len M) : n * M < len := by
  have hd := Nat.div_add_mod len M
  have hr : len % M < M := Nat.mod_lt _ hM
  rw [fragTotal] at hn
  rcases Nat.eq_zero_or_pos (len % M) with h | h
  · rw [h, if_pos rfl] at hn
    have h1 : (n + 1) * M ≤ (len / M) * M :=
      Nat.mul_le_mul_right _ (by omega)
    have h2 : (n + 1) * M = n * M + M := by ring
    have h3 : (len / M) * M = M * (len / M) := Nat.mul_comm _ _
    omega
  · rw [if_neg (by omega)] at hn
    have h1 : n * M ≤ (len / M) * M := Nat.mul_le_mul_right _ (by omega)
    have h3 : (len / M) * M = M * (len / M) := Nat.mul_comm _ _
    omega

/-! ### The correlation-id update -/

lemma advanceId_iterate (m : Nat) : ∀ N, (advanceId m)^[N] 1 = N % m + 1 := by
  intro N
  induction N with
  | zero => simp
  | succ k ih =>
    rw [Function.iterate_succ_apply', ih, advanceId]
    have hmod : (k + 1) % m = (k % m + 1) % m := by
      conv_lhs => rw [← Nat.mod_add_div k m]
      rw [Nat.add_right_comm, Nat.add_mul_mod_self_left]
    rw [hmod]

lemma advanceId_mem (m i : Nat) (hm : 1 ≤ m) :
    1 ≤ advanceId m i ∧ advanceId m i ≤ m := by
  have := Nat.mod_lt i (show 0 < m by omega)
  constructor
  · simp [advanceId]
  · rw [advanceId]; omega

/-! ### First-occurrence search -/

lemma findByte_eq_none (c : Nat) (l : List Nat) :
    findByte c l = none ↔ c ∉ l := by
  induction l with
  | nil => simp [findByte]
  | cons b rest ih =>
    by_cases hb : b = c
    · subst hb; simp [findByte]
    · simp only [findByte, if_neg hb, Option.map_eq_none', ih, List.mem_cons]
      constructor
      · rintro h (h1 | h2)
        · exact hb h1.symm
        · exact h h2
      · intro h h2
        exact h (Or.inr h2)

lemma findByte_eq_some (c : Nat) :
    ∀ (l : List Nat) (n : Nat),
      findByte c l = some n ↔
        l.get? n = some c ∧ ∀ i, i < n → l.get? i ≠ some c := by
  intro l
  induction l with
  | nil => intro n; simp [findByte]
  | cons b rest ih =>
    intro n
    by_cases hb : b = c
    · subst hb
      have hdef : findByte b (b :: rest) = some 0 := by simp [findByte]
      rw [hdef]
      constructor
      · intro h
        have h0 : n = 0 := (Option.some.inj h).symm
        subst h0
        exact ⟨by simp, by omega⟩
      · rintro ⟨-, hfirst⟩
        cases n with
        | zero => rfl
        | succ m =>
          exact absurd (by simp : (b :: rest).get? 0 = some b)
            (hfirst 0 (Nat.succ_pos m))
    · simp only [findByte, if_neg hb]
      cases n with
      | zero =>
        constructor
        · intro h
          cases hfind : findByte c rest <;> simp [hfind] at h
        · rintro ⟨hn, -⟩
          simp only [List.get?_cons_zero, Option.some.injEq] at hn
          exact absurd hn hb
      | succ m =>
        constructor
        · intro h
          cases hfind : findByte c rest with
          | none => simp [hfind] at h
          | some k =>
            simp only [hfind, Option.map_some', Option.some.injEq] at h
            have hk : k = m := by omega
            subst hk
            obtain ⟨h1, h2⟩ := (ih k).mp hfind
            refine ⟨by simpa using h1, ?_⟩
            intro i hi
            cases i with
            | zero =>
              simp only [ne_eq, List.get?_cons_zero, Option.some.injEq]
              exact hb
            | succ j =>
              have hj := h2 j (by omega)
              simpa using hj
        · rintro ⟨h1, h2⟩
          have hrest : findByte c rest = some m := by
            refine (ih m).mpr ⟨by simpa using h1, ?_⟩
            intro j hj
            have := h2 (j + 1) (by omega)
            simpa using this
          simp [hrest]

/-! ### Closed form of the fragment ranges -/

lemma chunkRanges_eq (len M : Nat) :
    ∀ (fuel start : Nat), start ≤ len →
      chunkRanges len M fuel start =
        (List.range fuel).map
          (fun n => (min (start + n * M) len, min (start + (n + 1) * M) len)) := by
  intro fuel
  induction fuel with
  | zero => intro start _; simp [chunkRanges]
  | succ k ih =>
    intro start hs
    have he : (if M < len - start then start + M else len) = min (start + M) len := by
      split <;> omega
    have hp : ∀ n : Nat,
        min (min (start + M) len + n * M) len = min (start + (n + 1) * M) len := by
      intro n
      have h1 : (n + 1) * M = n * M + M := by ring
      rw [h1]
      generalize n * M = w
      omega
    have hle : min (start + M) len ≤ len := Nat.min_le_right _ _
    rw [List.range_succ_eq_map, List.map_cons, List.map_map]
    simp only [chunkRanges, he]
    congr 1
    · have h0 : min (start + 0 * M) len = start := by omega
      have h1 : min (start + (0 + 1) * M) len = min (start + M) len := by
        have : (0 + 1) * M = M := by ring
        rw [this]
      rw [h0, h1]
    · rw [ih _ hle]
      apply List.map_congr_left
      intro n _
      simp only [Function.comp]
      have hA := hp n
      have hB := hp (n + 1)
      rw [hA, hB]

lemma chunkRanges_length (len M : Nat) :
    ∀ fuel start, (chunkRanges len M fuel start).length = fuel := by
  intro fuel
  induction fuel with
  | zero => intro start; rfl
  | succ k ih =>
    intro start
    simp only [chunkRanges, List.length_cons, ih]

lemma split_length (L M : Nat) : (split L M).length = fragTotal L M :=
  chunkRanges_length L M (fragTotal L M) 0

lemma split_get (L M : Nat) (hM : 0 < M) (i : Nat)
    (hi : i < (split L M).length) :
    (split L M).get ⟨i, hi⟩ = (i * M, min ((i + 1) * M) L) := by
  have hit : i < fragTotal L M := by rw [← split_length L M]; exact hi
  have hsplit : split L M =
      (List.range (fragTotal L M)).map
        (fun n => (min (0 + n * M) L, min (0 + (n + 1) * M) L)) :=
    chunkRanges_eq L M (fragTotal L M) 0 (Nat.zero_le _)
  have hstep : (split L M).get ⟨i, hi⟩ =
      (min (0 + i * M) L, min (0 + (i + 1) * M) L) := by
    rw [List.get_eq_getElem, List.getElem_of_eq hsplit hi, List.getElem_map,
      List.getElem_range]
  rw [hstep]
  have hlt : i * M < L := mul_lt_of_lt_fragTotal L M i hM hit
  have h1 : min (0 + i * M) L = i * M := by omega
  have h2 : 0 + (i + 1) * M = (i + 1) * M := by omega
  rw [h1, h2]

/-! ### Properties of the escape loop -/

lemma escapeChunk_eq_takeWhile (bs : List Nat) :
    escapeChunk bs = (bs.takeWhile (fun c => !isEolByte c)).flatMap escByte := by
  induction bs with
  | nil => simp [escapeChunk]
  | cons c rest ih =>
    by_cases h92 : c = 92
    · subst h92
      simp [escapeChunk, List.takeWhile_cons, isEolByte, escByte, ih]
    · by_cases h34 : c = 34
      · subst h34
        simp [escapeChunk, List.takeWhile_cons, isEolByte, escByte, ih]
      · by_cases heol : isEolByte c = true
        · have h13 : c = 13 ∨ c = 10 := by
            simpa [isEolByte] using heol
          simp [escapeChunk, h92, h34, heol, List.takeWhile_cons]
        · simp only [Bool.not_eq_true] at heol
          simp [escapeChunk, h92, h34, heol, List.takeWhile_cons, escByte, ih]

lemma escapeChunk_length_le (bs : List Nat) :
    (escapeChunk bs).length ≤ 2 * bs.length := by
  induction bs with
  | nil => simp [escapeChunk]
  | cons c rest ih =>
    simp only [escapeChunk]
    split
    · simp only [List.length_cons, List.length]
      omega
    · split
      · simp only [List.length_cons, List.length]
        omega
      · split
        · simp only [List.length_nil, List.length_cons]
          omega
        · simp only [List.length_cons]
          omega

/-! ### Properties of the fragment-emission loop -/

lemma mkMessage_header (args : Args) (idv sec seq total : Nat)
    (body : List Nat) :
    (mkMessage args idv sec seq total body).header =
      if 1 < total then some (idv, seq, total) else none := rfl

lemma mkMessage_time (args : Args) (idv sec seq total : Nat)
    (body : List Nat) :
    (mkMessage args idv sec seq total body).time = sec := rfl

lemma mkMessage_body (args : Args) (idv sec seq total : Nat)
    (body : List Nat) :
    (mkMessage args idv sec seq total body).body = body := rfl

lemma emitChunks_length (args : Args) (idv sec total len : Nat)
    (buf : List Nat) :
    ∀ fuel start,
      (emitChunks args idv sec total len buf fuel start).2 = false →
      (emitChunks args idv sec total len buf fuel start).1.length = fuel := by
  intro fuel
  induction fuel with
  | zero => intro start _; rfl
  | succ k ih =>
    intro start h
    simp only [emitChunks] at h ⊢
    by_cases hc : (isCharBoundary buf start && isCharBoundary buf
        (if args.maxEventLength < len - start then start + args.maxEventLength
         else len)) = true
    · simp only [if_pos hc] at h ⊢
      simp only [List.length_cons]
      rw [ih _ h]
    · simp only [if_neg hc] at h
      simp at h

lemma emitChunks_headers (args : Args) (idv sec total len : Nat)
    (buf : List Nat) :
    ∀ fuel start, fuel ≤ total →
      (emitChunks args idv sec total len buf fuel start).2 = false →
      (emitChunks args idv sec total len buf fuel start).1.map Message.header =
        (List.range fuel).map
          (fun i => if 1 < total then some (idv, total - fuel + i + 1, total)
                    else none) := by
  intro fuel
  induction fuel with
  | zero => intro start _ _; rfl
  | succ k ih =>
    intro start hft h
    simp only [emitChunks] at h ⊢
    by_cases hc : (isCharBoundary buf start && isCharBoundary buf
        (if args.maxEventLength < len - start then start + args.maxEventLength
         else len)) = true
    · simp only [if_pos hc] at h ⊢
      rw [List.range_succ_eq_map, List.map_cons, List.map_cons, List.map_map]
      congr 1
      · rw [mkMessage_header]
        have hseq : total - (k + 1) + 0 + 1 = total - k := by omega
        rw [hseq]
      · rw [ih _ (by omega) h]
        apply List.map_congr_left
        intro n _
        simp only [Function.comp]
        have hseq : total - (k + 1) + (n + 1) + 1 = total - k + n + 1 := by
          omega
        rw [hseq]
    · simp only [if_neg hc] at h
      simp at h

lemma emitChunks_time (args : Args) (idv sec total len : Nat)
    (buf : List Nat) :
    ∀ fuel start msg,
      msg ∈ (emitChunks args idv sec total len buf fuel start).1 →
      msg.time = sec := by
  intro fuel
  induction fuel with
  | zero => intro start msg hm; simp [emitChunks] at hm
  | succ k ih =>
    intro start msg hm
    simp only [emitChunks] at hm
    by_cases hc : (isCharBoundary buf start && isCharBoundary buf
        (if args.maxEventLength < len - start then start + args.maxEventLength
         else len)) = true
    · simp only [if_pos hc] at hm
      rcases List.mem_cons.mp hm with h | h
      · subst h; rfl
      · exact ih _ _ h
    · simp only [if_neg hc] at hm
      simp at hm

lemma emitChunks_header_id (args : Args) (idv sec total len : Nat)
    (buf : List Nat) :
    ∀ fuel start msg (x : Nat × Nat × Nat),
      msg ∈ (emitChunks args idv sec total len buf fuel start).1 →
      msg.header = some x → x.1 = idv := by
  intro fuel
  induction fuel with
  | zero => intro start msg x hm _; simp [emitChunks] at hm
  | succ k ih =>
    intro start msg x hm hx
    simp only [emitChunks] at hm
    by_cases hc : (isCharBoundary buf start && isCharBoundary buf
        (if args.maxEventLength < len - start then start + args.maxEventLength
         else len)) = true
    · simp only [if_pos hc] at hm
      rcases List.mem_cons.mp hm with h | h
      · subst h
        rw [mkMessage_header] at hx
        by_cases ht : 1 < total
        · rw [if_pos ht] at hx
          cases Option.some.inj hx
          rfl
        · rw [if_neg ht] at hx
          cases hx
      · exact ih _ _ _ h hx
    · simp only [if_neg hc] at hm
      simp at hm

lemma emitChunks_body (args : Args) (idv sec total len : Nat)
    (buf : List Nat) :
    ∀ fuel start msg,
      msg ∈ (emitChunks args idv sec total len buf fuel start).1 →
      ∃ chunk : List Nat, chunk.length ≤ args.maxEventLength ∧
        msg.body = escapeChunk chunk := by
  intro fuel
  induction fuel with
  | zero => intro start msg hm; simp [emitChunks] at hm
  | succ k ih =>
    intro start msg hm
    simp only [emitChunks] at hm
    by_cases hc : (isCharBoundary buf start && isCharBoundary buf
        (if args.maxEventLength < len - start then start + args.maxEventLength
         else len)) = true
    · simp only [if_pos hc] at hm
      rcases List.mem_cons.mp hm with h | h
      · subst h
        refine ⟨(buf.drop start).take
          ((if args.maxEventLength < len - start
            then start + args.maxEventLength else len) - start), ?_, rfl⟩
        have hlen : ((if args.maxEventLength < len - start
            then start + args.maxEventLength else len) - start)
            ≤ args.maxEventLength := by
          split <;> omega
        calc ((buf.drop start).take
              ((if args.maxEventLength < len - start
                then start + args.maxEventLength else len) - start)).length
            ≤ (if args.maxEventLength < len - start
                then start + args.maxEventLength else len) - start := by
              rw [List.length_take]
              omega
          _ ≤ args.maxEventLength := hlen
      · exact ih _ _ h
    · simp only [if_neg hc] at hm
      simp at hm

/-! ### Characterization of one loop iteration -/

lemma stepLine_count (args : Args) (st : LoopState) (buf : List Nat)
    (t1 sec : Nat) (hM : 0 < args.maxEventLength) :
    (stepLine args st buf t1 sec).state.count =
      resetCount args st t1 +
        fragTotal (logicalLen buf) args.maxEventLength := by
  have hM0 : ¬ args.maxEventLength = 0 := by omega
  simp only [stepLine, if_neg hM0]
  split
  · rfl
  · split
    · rfl
    · split
      · split
        · rfl
        · rfl
      · rfl

lemma stepLine_t0 (args : Args) (st : LoopState) (buf : List Nat)
    (t1 sec : Nat) :
    (stepLine args st buf t1 sec).state.t0 = resetT0 args st t1 := by
  simp only [stepLine]
  split
  · rfl
  · split
    · rfl
    · split
      · rfl
      · split
        · split
          · rfl
          · rfl
        · rfl

lemma stepLine_discarded_iff (args : Args) (st : LoopState) (buf : List Nat)
    (t1 sec : Nat) (hM : 0 < args.maxEventLength) :
    ((stepLine args st buf t1 sec).discarded = true ↔
      0 < args.limit ∧ args.limit <
        resetCount args st t1 +
          fragTotal (logicalLen buf) args.maxEventLength) := by
  have hM0 : ¬ args.maxEventLength = 0 := by omega
  simp only [stepLine, if_neg hM0]
  split
  · rename_i hcond
    simpa using hcond
  · rename_i hcond
    split
    · simpa using hcond
    · split
      · split
        · simpa using hcond
        · simpa using hcond
      · simpa using hcond

lemma stepLine_emitted_of_discarded (args : Args) (st : LoopState)
    (buf : List Nat) (t1 sec : Nat) :
    (stepLine args st buf t1 sec).discarded = true →
    (stepLine args st buf t1 sec).emitted = [] := by
  simp only [stepLine]
  split
  · intro h; cases h
  · split
    · intro _; rfl
    · split
      · intro h; cases h
      · split
        · split
          · intro h; cases h
          · intro h; cases h
        · intro h; cases h

lemma stepLine_emitted (args : Args) (st : LoopState) (buf : List Nat)
    (t1 sec : Nat) (hM : 0 < args.maxEventLength) :
    (stepLine args st buf t1 sec).emitted =
      if (stepLine args st buf t1 sec).discarded = true then []
      else (emitChunks args st.id sec
          (fragTotal (logicalLen buf) args.maxEventLength) (logicalLen buf) buf
          (fragTotal (logicalLen buf) args.maxEventLength) 0).1 := by
  have hM0 : ¬ args.maxEventLength = 0 := by omega
  simp only [stepLine, if_neg hM0]
  split
  · simp
  · split
    · simp
    · split
      · split
        · simp
        · simp
      · simp

lemma stepLine_panicked (args : Args) (st : LoopState) (buf : List Nat)
    (t1 sec : Nat) (hM : 0 < args.maxEventLength) (hm : 1 ≤ args.maxEventId) :
    (stepLine args st buf t1 sec).panicked =
      if (stepLine args st buf t1 sec).discarded = true then false
      else (emitChunks args st.id sec
          (fragTotal (logicalLen buf) args.maxEventLength) (logicalLen buf) buf
          (fragTotal (logicalLen buf) args.maxEventLength) 0).2 := by
  have hM0 : ¬ args.maxEventLength = 0 := by omega
  simp only [stepLine, if_neg hM0]
  split
  · simp
  · split
    · rename_i hr2
      simp [hr2]
    · rename_i hr2
      split
      · split
        · rename_i hmid
          exact absurd hmid (by omega)
        · simpa using (Bool.not_eq_true _).mp hr2
      · simpa using (Bool.not_eq_true _).mp hr2

lemma stepLine_id (args : Args) (st : LoopState) (buf : List Nat)
    (t1 sec : Nat) (hm : 1 ≤ args.maxEventId) :
    (stepLine args st buf t1 sec).state.id =
      if (stepLine args st buf t1 sec).panicked = false ∧
         (stepLine args st buf t1 sec).discarded = false ∧
         1 < fragTotal (logicalLen buf) args.maxEventLength
      then advanceId args.maxEventId st.id else st.id := by
  simp only [stepLine]
  split
  · simp
  · split
    · simp
    · split
      · simp
      · split
        · split
          · rename_i hmid
            exact absurd hmid (by omega)
          · rename_i htot _
            simp [htot]
        · rename_i htot
          simp [htot]

lemma first_occurrence_unique {l : List Nat} {c p q : Nat}
    (hp1 : l.get? p = some c) (hp2 : ∀ i, i < p → l.get? i ≠ some c)
    (hq1 : l.get? q = some c) (hq2 : ∀ i, i < q → l.get? i ≠ some c) :
    p = q := by
  rcases Nat.lt_trichotomy p q with h | h | h
  · exact absurd hp1 (hq2 p h)
  · exact h
  · exact absurd hq1 (hp2 q h)

/-! ### The claims -/

/-- C1: for every logical length `L` and fragment size limit `M > 0` the
fragmenter computes `total = L / M + (1 if L mod M > 0 else 0)`, which is
`ceil(L / M)`, and produces exactly `total` ranges; the `i`-th range is
`(i * M, min ((i + 1) * M) L)`, so the ranges are contiguous,
non-overlapping, start at 0, end at `L`, are non-empty, each of length `M`
except the final one whose length is at most `M`; for `L = 0` the total is
0 and there are no ranges, and a line of logical length 0 emits no message
and adds 0 to the rate counter. -/
theorem fragmenter_ranges (L M : Nat) (hM : 0 < M) :
    fragTotal L M = L / M + (if L % M = 0 then 0 else 1) ∧
    fragTotal L M = (L + M - 1) / M ∧
    (split L M).length = fragTotal L M ∧
    (∀ i (hi : i < (split L M).length),
      (split L M).get ⟨i, hi⟩ = (i * M, min ((i + 1) * M) L)) ∧
    (∀ i (hi : i + 1 < (split L M).length),
      ((split L M).get ⟨i, Nat.lt_of_succ_lt hi⟩).2 =
        ((split L M).get ⟨i + 1, hi⟩).1) ∧
    (∀ i (hi : i < (split L M).length),
      ((split L M).get ⟨i, hi⟩).1 < ((split L M).get ⟨i, hi⟩).2 ∧
      ((split L M).get ⟨i, hi⟩).2 ≤ L ∧
      ((split L M).get ⟨i, hi⟩).2 - ((split L M).get ⟨i, hi⟩).1 ≤ M) ∧
    (∀ i (hi : i + 1 < (split L M).length),
      ((split L M).get ⟨i, Nat.lt_of_succ_lt hi⟩).2 -
        ((split L M).get ⟨i, Nat.lt_of_succ_lt hi⟩).1 = M) ∧
    (∀ h0 : 0 < (split L M).length,
      ((split L M).get ⟨0, h0⟩).1 = 0 ∧
      ((split L M).get ⟨(split L M).length - 1, by omega⟩).2 = L) ∧
    (L = 0 → fragTotal L M = 0 ∧ split L M = []) ∧
    (∀ (args : Args) (st : LoopState) (buf : List Nat) (t1 sec : Nat),
      logicalLen buf = 0 →
        (stepLine args st buf t1 sec).emitted = [] ∧
        (stepLine args st buf t1 sec).state.count = resetCount args st t1) := by
  have hlen := split_length L M
  have hget := split_get L M hM
  have hfin : ∀ i, i < fragTotal L M → i * M < L := fun i hi =>
    mul_lt_of_lt_fragTotal L M i hM hi
  refine ⟨rfl, fragTotal_eq_ceil L M hM, hlen, hget, ?_, ?_, ?_, ?_, ?_, ?_⟩
  · intro i hi
    rw [hget i (Nat.lt_of_succ_lt hi), hget (i + 1) hi]
    have hlt : (i + 1) * M < L := hfin (i + 1) (by omega)
    simp only
    omega
  · intro i hi
    rw [hget i hi]
    have h1 : i * M < L := hfin i (by omega)
    have h2 : (i + 1) * M = i * M + M := by ring
    simp only
    omega
  · intro i hi
    rw [hget i (Nat.lt_of_succ_lt hi)]
    have h1 : (i + 1) * M < L := hfin (i + 1) (by omega)
    have h2 : (i + 1) * M = i * M + M := by ring
    simp only
    omega
  · intro h0
    constructor
    · rw [hget 0 h0]
      simp
    · rw [hget ((split L M).length - 1) (by omega)]
      have h1 : (split L M).length - 1 + 1 = fragTotal L M := by omega
      rw [h1]
      have h2 := le_fragTotal_mul L M hM
      simp only
      omega
  · intro h0
    subst h0
    exact ⟨fragTotal_zero M, by simp [split, fragTotal_zero, chunkRanges]⟩
  · intro args st buf t1 sec h0
    by_cases hz : args.maxEventLength = 0
    · constructor
      · show (stepLine args st buf t1 sec).emitted = []
        simp only [stepLine, if_pos hz]
      · show (stepLine args st buf t1 sec).state.count = resetCount args st t1
        simp only [stepLine, if_pos hz]
    · have hMa : 0 < args.maxEventLength := by omega
      constructor
      · rw [stepLine_emitted args st buf t1 sec hMa, h0, fragTotal_zero]
        split
        · rfl
        · rfl
      · rw [stepLine_count args st buf t1 sec hMa, h0, fragTotal_zero]
        omega

theorem fragmenter_ranges_witness :
    (0 : Nat) < 245 ∧ (split 300 245).length = fragTotal 300 245 ∧
    fragTotal 300 245 = 2 ∧ split 300 245 = [(0, 245), (245, 300)] :=
  ⟨by decide, (fragmenter_ranges 300 245 (by decide)).2.2.1, by decide,
   by decide⟩

/-- C2: for every arriving line the rate limiter first resets the counter
and window start when at least `window` whole seconds elapsed, then adds
the line's fragment total to the counter, and discards the line if and only
if `limit > 0` and the post-increment counter exceeds the limit; a
discarded line emits nothing, its fragment units stay counted, and with
`limit = 0` no line is ever discarded. -/
theorem rate_limiter_gate (args : Args) (st : LoopState) (buf : List Nat)
    (t1 sec : Nat) (hM : 0 < args.maxEventLength) :
    (stepLine args st buf t1 sec).state.count =
      (if args.window ≤ elapsedSecs st.t0 t1 then 0 else st.count) +
        fragTotal (logicalLen buf) args.maxEventLength ∧
    (stepLine args st buf t1 sec).state.t0 =
      (if args.window ≤ elapsedSecs st.t0 t1 then t1 else st.t0) ∧
    ((stepLine args st buf t1 sec).discarded = true ↔
      (0 < args.limit ∧ args.limit <
        (if args.window ≤ elapsedSecs st.t0 t1 then 0 else st.count) +
          fragTotal (logicalLen buf) args.maxEventLength)) ∧
    ((stepLine args st buf t1 sec).discarded = true →
      (stepLine args st buf t1 sec).emitted = []) ∧
    (args.limit = 0 → (stepLine args st buf t1 sec).discarded = false) := by
  refine ⟨stepLine_count args st buf t1 sec hM, stepLine_t0 args st buf t1 sec,
    stepLine_discarded_iff args st buf t1 sec hM,
    stepLine_emitted_of_discarded args st buf t1 sec, ?_⟩
  intro h0
  cases hB : (stepLine args st buf t1 sec).discarded
  · rfl
  · have := (stepLine_discarded_iff args st buf t1 sec hM).mp hB
    omega

theorem rate_limiter_gate_witness :
    (stepLine ⟨[104], [112], [116], 1, 1, 245, 99, false⟩ ⟨0, 1, 1⟩
      [104, 10] 0 0).discarded = true ∧
    (stepLine ⟨[104], [112], [116], 1, 1, 245, 99, false⟩ ⟨0, 1, 1⟩
      [104, 10] 0 0).state.count = 2 :=
  ⟨((rate_limiter_gate ⟨[104], [112], [116], 1, 1, 245, 99, false⟩ ⟨0, 1, 1⟩
      [104, 10] 0 0 (by decide)).2.2.1).mpr (by decide), by decide⟩

/-- C3: escaping is byte-by-byte over the chunk: the emitted body is the
per-byte escape of the longest prefix of the chunk free of carriage-return
and line-feed bytes, where a backslash becomes two backslashes, a
double-quote becomes backslash-quote, and every other byte passes through
unchanged; the first CR or LF ends the body with no further bytes emitted. -/
theorem escaper_rules (bs : List Nat) :
    escapeChunk bs = (bs.takeWhile (fun c => !isEolByte c)).flatMap escByte ∧
    escByte 92 = [92, 92] ∧
    escByte 34 = [92, 34] ∧
    (∀ c, c ≠ 92 → c ≠ 34 → escByte c = [c]) ∧
    (∀ c, isEolByte c = true ↔ c = 13 ∨ c = 10) :=
  ⟨escapeChunk_eq_takeWhile bs, rfl, rfl,
   fun c h1 h2 => by simp [escByte, h1, h2],
   fun c => by simp [isEolByte]⟩

theorem escaper_rules_witness :
    escapeChunk [92, 34, 65, 13, 66] =
      (([92, 34, 65, 13, 66] : List Nat).takeWhile
        (fun c => !isEolByte c)).flatMap escByte ∧
    escByte 65 = [65] ∧
    escapeChunk [92, 34, 65, 13, 66] = [92, 92, 92, 34, 65] :=
  ⟨(escaper_rules [92, 34, 65, 13, 66]).1,
   (escaper_rules [92, 34, 65, 13, 66]).2.2.2.1 65 (by decide) (by decide),
   by decide⟩

/-- C4: the correlation id starts at 1; one loop step changes it exactly
when the line was neither discarded nor panicking and its fragment total
exceeds 1, and then by `advanceId`, i.e. `id := id mod max_event_id + 1`;
`advanceId` keeps the id within `[1, max_event_id]` (for
`max_event_id ≥ 1`); every header emitted during a step carries the step's
starting id; iterating the advance from 1 gives `(N mod max_event_id) + 1`
after `N` advances, so the id stamped on the `N`-th multi-chunk line
(which has seen `N - 1` advances) is `((N - 1) mod max_event_id) + 1`. -/
theorem correlation_id_law (args : Args) (t : Nat)
    (hm : 1 ≤ args.maxEventId) :
    (initState t).id = 1 ∧
    (∀ (st : LoopState) (buf : List Nat) (t1 sec : Nat),
      (stepLine args st buf t1 sec).state.id =
        if (stepLine args st buf t1 sec).panicked = false ∧
           (stepLine args st buf t1 sec).discarded = false ∧
           1 < fragTotal (logicalLen buf) args.maxEventLength
        then advanceId args.maxEventId st.id else st.id) ∧
    (∀ i, 1 ≤ i → i ≤ args.maxEventId →
      1 ≤ advanceId args.maxEventId i ∧
        advanceId args.maxEventId i ≤ args.maxEventId) ∧
    (∀ (st : LoopState) (buf : List Nat) (t1 sec : Nat)
        (msg : Message) (x : Nat × Nat × Nat),
      msg ∈ (stepLine args st buf t1 sec).emitted → msg.header = some x →
      x.1 = st.id) ∧
    (∀ N, (advanceId args.maxEventId)^[N] 1 = N % args.maxEventId + 1) ∧
    (∀ N, 1 ≤ N →
      (advanceId args.maxEventId)^[N - 1] 1 =
        (N - 1) % args.maxEventId + 1) := by
  refine ⟨rfl, fun st buf t1 sec => stepLine_id args st buf t1 sec hm,
    fun i h1 h2 => advanceId_mem args.maxEventId i hm, ?_, ?_, ?_⟩
  · intro st buf t1 sec msg x hmem hx
    by_cases hz : args.maxEventLength = 0
    · simp only [stepLine, if_pos hz] at hmem
      simp at hmem
    · have hMa : 0 < args.maxEventLength := by omega
      rw [stepLine_emitted args st buf t1 sec hMa] at hmem
      split at hmem
      · simp at hmem
      · exact emitChunks_header_id args st.id sec _ _ buf _ _ msg x hmem hx
  · exact advanceId_iterate args.maxEventId
  · intro N _
    exact advanceId_iterate args.maxEventId (N - 1)

theorem correlation_id_law_witness :
    (1 ≤ advanceId 99 99 ∧ advanceId 99 99 ≤ 99) ∧ advanceId 99 99 = 1 ∧
    (advanceId 99)^[100] 1 = 100 % 99 + 1 :=
  ⟨(correlation_id_law ⟨[104], [112], [116], 0, 1, 2, 99, false⟩ 0
      (by decide)).2.2.1 99 (by decide) (by decide), by decide,
   (correlation_id_law ⟨[104], [112], [116], 0, 1, 2, 99, false⟩ 0
      (by decide)).2.2.2.2.1 100⟩

/-- C5 counterexample: with `max_event_length = 2` and a line of two
backslashes, the single emitted message's escaped body (the content between
the quotes, correlation header excluded) has length 4, which exceeds the
configured fragment size limit; the claimed bound on the escaped body is
false. -/
theorem escaped_body_exceeds_limit :
    ∃ msg ∈ (stepLine ⟨[104], [112], [116], 0, 1, 2, 99, false⟩ (initState 0)
        [92, 92, 10] 0 0).emitted,
      (⟨[104], [112], [116], 0, 1, 2, 99, false⟩ : Args).maxEventLength <
        msg.body.length := by decide

/-- C5 amended: every emitted message's body is the escape of a raw chunk
of at most `max_event_length` bytes; the escaped body itself is bounded by
twice `max_event_length` (escaping can double a byte), not by
`max_event_length`. -/
theorem chunk_body_bounded (args : Args) (st : LoopState) (buf : List Nat)
    (t1 sec : Nat) :
    ∀ msg ∈ (stepLine args st buf t1 sec).emitted,
      ∃ chunk : List Nat, chunk.length ≤ args.maxEventLength ∧
        msg.body = escapeChunk chunk ∧
        msg.body.length ≤ 2 * args.maxEventLength := by
  intro msg hmem
  by_cases hz : args.maxEventLength = 0
  · simp only [stepLine, if_pos hz] at hmem
    simp at hmem
  · have hMa : 0 < args.maxEventLength := by omega
    rw [stepLine_emitted args st buf t1 sec hMa] at hmem
    split at hmem
    · simp at hmem
    · obtain ⟨chunk, hlen, hbody⟩ :=
        emitChunks_body args st.id sec _ _ buf _ _ msg hmem
      refine ⟨chunk, hlen, hbody, ?_⟩
      rw [hbody]
      calc (escapeChunk chunk).length
          ≤ 2 * chunk.length := escapeChunk_length_le chunk
        _ ≤ 2 * args.maxEventLength := by omega

theorem chunk_body_bounded_witness :
    ∃ chunk : List Nat, chunk.length ≤ 2 ∧
      ([92, 92, 92, 92] : List Nat) = escapeChunk chunk ∧
      ([92, 92, 92, 92] : List Nat).length ≤ 2 * 2 := by
  have h := chunk_body_bounded ⟨[104], [112], [116], 0, 1, 2, 99, false⟩
    (initState 0) [92, 92, 10] 0 0
    ⟨[104], 0, [112], [116], none, [92, 92, 92, 92]⟩ (by decide)
  simpa using h

/-- C6: on an emitted (neither discarded nor panicking) line, the number of
messages equals the fragment total, the sequence of correlation headers is
`@id:1:total@ .. @id:total:total@` in order when `total > 1` and absent on
every fragment when `total ≤ 1`, and every fragment of the line carries the
same per-line timestamp. -/
theorem fragment_header_time (args : Args) (st : LoopState) (buf : List Nat)
    (t1 sec : Nat) (hM : 0 < args.maxEventLength)
    (hm : 1 ≤ args.maxEventId)
    (hp : (stepLine args st buf t1 sec).panicked = false)
    (hd : (stepLine args st buf t1 sec).discarded = false) :
    (stepLine args st buf t1 sec).emitted.length =
      fragTotal (logicalLen buf) args.maxEventLength ∧
    (stepLine args st buf t1 sec).emitted.map Message.header =
      (List.range (fragTotal (logicalLen buf) args.maxEventLength)).map
        (fun i =>
          if 1 < fragTotal (logicalLen buf) args.maxEventLength
          then some (st.id, i + 1,
            fragTotal (logicalLen buf) args.maxEventLength)
          else none) ∧
    (∀ msg ∈ (stepLine args st buf t1 sec).emitted, msg.time = sec) := by
  have hd' : ¬ (stepLine args st buf t1 sec).discarded = true := by
    simp [hd]
  rw [stepLine_panicked args st buf t1 sec hM hm, if_neg hd'] at hp
  have hem := stepLine_emitted args st buf t1 sec hM
  rw [if_neg hd'] at hem
  refine ⟨?_, ?_, ?_⟩
  · rw [hem]
    exact emitChunks_length args st.id sec _ _ buf _ 0 hp
  · rw [hem, emitChunks_headers args st.id sec _ _ buf _ 0 (Nat.le_refl _) hp]
    apply List.map_congr_left
    intro i _
    have hs : fragTotal (logicalLen buf) args.maxEventLength -
        fragTotal (logicalLen buf) args.maxEventLength + i + 1 = i + 1 := by
      omega
    rw [hs]
  · intro msg hmem
    rw [hem] at hmem
    exact emitChunks_time args st.id sec _ _ buf _ 0 msg hmem

theorem fragment_header_time_witness :
    (stepLine ⟨[104], [112], [116], 0, 1, 2, 99, false⟩ (initState 0)
        [97, 98, 99, 10] 0 7).emitted.map Message.header =
      (List.range (fragTotal (logicalLen [97, 98, 99, 10]) 2)).map
        (fun i => if 1 < fragTotal (logicalLen [97, 98, 99, 10]) 2
                  then some ((initState 0).id, i + 1,
                    fragTotal (logicalLen [97, 98, 99, 10]) 2)
                  else none) :=
  (fragment_header_time ⟨[104], [112], [116], 0, 1, 2, 99, false⟩
    (initState 0) [97, 98, 99, 10] 0 7 (by decide) (by decide) (by decide)
    (by decide)).2.1

/-- C7: the logical length of a raw line is the offset of its first NUL
byte when one occurs; otherwise it is the raw length minus one when the
line ends in a line-feed, and the raw length itself for an unterminated
final line. -/
theorem logical_length_rule (buf : List Nat) :
    (∀ n, buf.get? n = some 0 → (∀ i, i < n → buf.get? i ≠ some 0) →
      logicalLen buf = n) ∧
    ((0 : Nat) ∉ buf →
      logicalLen buf =
        buf.length - (if buf.getLast? = some 10 then 1 else 0)) := by
  constructor
  · intro n h1 h2
    have hfind : findByte 0 buf = some n :=
      (findByte_eq_some 0 buf n).mpr ⟨h1, h2⟩
    simp [logicalLen, hfind]
  · intro h
    have hnone : findByte 0 buf = none := (findByte_eq_none 0 buf).mpr h
    simp only [logicalLen, hnone]
    by_cases hLF : buf.getLast? = some 10
    · simp [endsWithLF, hLF]
    · simp [endsWithLF, hLF]

theorem logical_length_rule_witness :
    logicalLen [97, 0, 98, 10] = 1 ∧ logicalLen [104, 105, 10] = 2 ∧
    logicalLen [104, 105] = 2 :=
  ⟨(logical_length_rule [97, 0, 98, 10]).1 1 (by decide) (by decide),
   by have h := (logical_length_rule [104, 105, 10]).2 (by decide)
      simpa using h,
   by have h := (logical_length_rule [104, 105]).2 (by decide)
      simpa using h⟩

/-- C8 counterexample: the service string "/x" (bytes [47, 120]) has an
empty plugin part, yet parse_service accepts it and the pre-loop validation
accepts the configuration; the claim that services with an empty plugin or
type part are rejected is false. -/
theorem empty_plugin_accepted :
    parse_service [47, 120] = some ([], [120]) ∧
    validateConfig [47, 120] [104] = some ([], [120]) := by decide

/-- C8 amended: validation accepts a configuration iff the hostname is at
most 15 bytes and the service has a '/' whose first occurrence leaves a
plugin part of at most 63 bytes before it and a type part of at most 63
bytes after it; empty plugin or type parts are accepted.  Accepted
configurations yield plugin and type parts of at most 63 bytes. -/
theorem config_validation (s h : List Nat) :
    ((validateConfig s h).isSome = true ↔
      h.length ≤ 15 ∧
      ∃ pos, s.get? pos = some 47 ∧ (∀ i, i < pos → s.get? i ≠ some 47) ∧
        pos ≤ 63 ∧ s.length - (pos + 1) ≤ 63) ∧
    (∀ p t, validateConfig s h = some (p, t) →
      p.length ≤ 63 ∧ t.length ≤ 63) := by
  by_cases hh : HOSTNAME_MAX_LEN ≤ h.length
  · rw [validateConfig, if_pos hh]
    constructor
    · simp only [Option.isSome_none]
      constructor
      · intro hfalse; cases hfalse
      · rintro ⟨h15, -⟩
        have : (16 : Nat) ≤ h.length := hh
        omega
    · intro p t hpt; cases hpt
  · rw [validateConfig, if_neg hh]
    have h15 : h.length ≤ 15 := by
      have : ¬ (16 : Nat) ≤ h.length := hh
      omega
    cases hf : findByte 47 s with
    | none =>
      have hnotin : (47 : Nat) ∉ s := (findByte_eq_none 47 s).mp hf
      simp only [parse_service, hf]
      constructor
      · simp only [Option.isSome_none]
        constructor
        · intro hfalse; cases hfalse
        · rintro ⟨-, pos, hget, -, -, -⟩
          exact absurd (List.get?_mem hget) hnotin
      · intro p t hpt; cases hpt
    | some pos =>
      obtain ⟨hget, hfirst⟩ := (findByte_eq_some 47 s pos).mp hf
      have hposlt : pos < s.length := by
        by_contra hge
        rw [List.get?_eq_none.mpr (by omega)] at hget
        cases hget
      simp only [parse_service, hf]
      by_cases hrej : DATA_MAX_LEN ≤ pos ∨ DATA_MAX_LEN ≤ s.length - (pos + 1)
      · rw [if_pos hrej]
        constructor
        · simp only [Option.isSome_none]
          constructor
          · intro hfalse; cases hfalse
          · rintro ⟨-, q, hqget, hqfirst, hq63, hq63r⟩
            have hpq : pos = q :=
              first_occurrence_unique hget hfirst hqget hqfirst
            subst hpq
            rw [DATA_MAX_LEN] at hrej
            omega
        · intro p t hpt; cases hpt
      · rw [if_neg hrej]
        rw [DATA_MAX_LEN] at hrej
        constructor
        · simp only [Option.isSome_some, true_iff]
          exact ⟨h15, pos, hget, hfirst, by omega, by omega⟩
        · intro p t hpt
          have hp : p = s.take pos := by
            cases hpt; rfl
          have ht : t = s.drop (pos + 1) := by
            cases hpt; rfl
          subst hp
          subst ht
          constructor
          · rw [List.length_take]
            omega
          · rw [List.length_drop]
            omega

theorem config_validation_witness :
    (validateConfig [112, 47, 116] [104]).isSome = true ∧
    ([112] : List Nat).length ≤ 63 ∧ ([116] : List Nat).length ≤ 63 :=
  ⟨(config_validation [112, 47, 116] [104]).1.mpr
      ⟨by decide, 1, by decide, by decide, by decide, by decide⟩,
   (config_validation [112, 47, 116] [104]).2 [112] [116] (by decide)⟩

/-- C9: the fragment emission is not total on valid input: the two-byte
UTF-8 character 0xC3 0xA9 followed by a newline is a valid UTF-8 line, and
with `max_event_length = 1` it fragments into 2 chunks, but byte offset 1
is not a char boundary, so slicing the first chunk panics and fewer than
`total` fragments are emitted (here: none). -/
theorem multibyte_boundary_panic :
    utf8Valid [195, 169, 10] = true ∧
    1 < fragTotal (logicalLen [195, 169, 10]) 1 ∧
    isCharBoundary [195, 169, 10] 1 = false ∧
    (stepLine ⟨[104], [112], [116], 0, 1, 1, 99, false⟩ (initState 0)
      [195, 169, 10] 0 0).discarded = false ∧
    (stepLine ⟨[104], [112], [116], 0, 1, 1, 99, false⟩ (initState 0)
      [195, 169, 10] 0 0).panicked = true ∧
    (stepLine ⟨[104], [112], [116], 0, 1, 1, 99, false⟩ (initState 0)
      [195, 169, 10] 0 0).emitted.length <
      fragTotal (logicalLen [195, 169, 10]) 1 := by decide

/-- C10: `read_line` into a `String` admits only valid UTF-8 (std
behaviour); when a line's bytes are not valid UTF-8 the read fails, the
loop returns the I/O error immediately, and the run's output is exactly the
output of the lines before the bad one — nothing for the bad line or any
later line. -/
theorem invalid_utf8_fatal (args : Args) (st : LoopState) (pre : List Event)
    (ev : Event) (post : List Event) (ms : List Message)
    (hbad : utf8Valid ev.raw = false)
    (hpre : runLoop args st pre = (ms, RunExit.eof)) :
    runLoop args st (pre ++ ev :: post) = (ms, RunExit.ioError) := by
  induction pre generalizing st ms with
  | nil =>
    simp only [runLoop] at hpre
    injection hpre with h1 h2
    rw [List.nil_append]
    have hbad' : ¬ (utf8Valid ev.raw = true) := by simp [hbad]
    simp only [runLoop, if_neg hbad']
    rw [← h1]
  | cons e pre ih =>
    rw [List.cons_append]
    simp only [runLoop] at hpre ⊢
    by_cases hv : utf8Valid e.raw = true
    · rw [if_pos hv] at hpre ⊢
      by_cases hpk : (stepLine args st e.raw e.t1 e.sec).panicked = true
      · rw [if_pos hpk] at hpre
        injection hpre with h1 h2
        cases h2
      · rw [if_neg hpk] at hpre ⊢
        injection hpre with h1 h2
        have hrun : runLoop args (stepLine args st e.raw e.t1 e.sec).state pre
            = ((runLoop args (stepLine args st e.raw e.t1 e.sec).state pre).1,
              RunExit.eof) := by
          rw [← h2]
        rw [ih _ _ hrun, ← h1]
    · rw [if_neg hv] at hpre
      injection hpre with h1 h2
      cases h2

theorem invalid_utf8_fatal_witness :
    runLoop ⟨[104], [112], [116], 0, 1, 245, 99, false⟩ (initState 0)
        ([⟨[104, 105, 10], 0, 7⟩] ++ ⟨[255, 10], 1, 8⟩ :: [⟨[104, 10], 2, 9⟩])
      = ([⟨[104], 7, [112], [116], none, [104, 105]⟩], RunExit.ioError) :=
  invalid_utf8_fatal ⟨[104], [112], [116], 0, 1, 245, 99, false⟩
    (initState 0) [⟨[104, 105, 10], 0, 7⟩] ⟨[255, 10], 1, 8⟩
    [⟨[104, 10], 2, 9⟩] [⟨[104], 7, [112], [116], none, [104, 105]⟩]
    (by decide) (by decide)

end CollectdPrv
